import Mathlib

/-!
Shallow embedding of the go-uleb128 package (uleb.go) and proofs about it.

The platform modelled is 64-bit: the Go predicate is32Bit() returns false,
big.Word is a 64-bit unsigned integer and wordSize() = 64, so Encode
dispatches to encode64 and Decode takes its 64-bit branches.  Machine
integers (uint64, big.Word, byte) are modelled as Nat, with an explicit
reduction modulo 2 ^ 64 at the single point where a Go shift can wrap.
Byte buffers are modelled as List Nat; the assignment buffer[i] = x
becomes List.set, and every source-level write is guarded by the same
bounds check as the source.  A Go runtime panic (slice index out of
range on one of the lookup tables) is modelled by the value none of an
Option-typed result.
-/

set_option maxHeartbeats 1000000

/-- Constant payloadMask = 0x7f from uleb.go. -/
def payloadMask : Nat := 0x7f

/-- Constant continuationMask = 0x80 from uleb.go. -/
def continuationMask : Nat := 0x80

/-- Byte value written by every encoder loop in uleb.go for a pending
group: byte((x & payloadMask) | continuationMask). -/
def flagged (x : Nat) : Nat := (x &&& payloadMask) ||| continuationMask

/-- Statement buffer[pos] &= payloadMask from uleb.go, clearing the
continuation flag of an already-written byte. -/
def clearFlag (buffer : List Nat) (pos : Nat) : List Nat :=
  buffer.set pos (buffer.getD pos 0 &&& payloadMask)

/-- Function wordSize() from uleb.go on a 64-bit platform. -/
def wordSize : Nat := 64

/-- Function wordMask() from uleb.go: wordSize() - 1. -/
def wordMask : Nat := wordSize - 1

/-- Word representation used by math/big on a 64-bit platform: the value
written in base 2 ^ 64, least significant word first, with no trailing zero
word.  Models value.Bits() in uleb.go. -/
def toWords (v : Nat) : List Nat :=
  if v = 0 then [] else v % 2 ^ 64 :: toWords (v / 2 ^ 64)
decreasing_by exact Nat.div_lt_self (Nat.pos_of_ne_zero (by assumption)) (by norm_num)

/-- Counting loop shared by EncodedSize and EncodedSizeUint64 in uleb.go:
the number of iterations of (for v != 0 { count++ ; v >>= 7 }). -/
def shift7Count (v : Nat) : Nat :=
  if v = 0 then 0 else shift7Count (v >>> 7) + 1
decreasing_by
  rw [Nat.shiftRight_eq_div_pow]
  exact Nat.div_lt_self (Nat.pos_of_ne_zero (by assumption)) (by norm_num)

/-- EncodedSize from uleb.go: the number of bytes required to encode the
value, computed from its word representation. -/
def EncodedSize (value : Nat) : Nat :=
  if value = 0 then 1
  else
    ((toWords value).length - 1) * wordSize / 7 + 1 +
      shift7Count ((toWords value).getLastD 0 >>>
        (7 - ((toWords value).length - 1) * wordSize % 7))

/-- EncodedSizeUint64 from uleb.go. -/
def EncodedSizeUint64 (value : Nat) : Nat :=
  if value = 0 then 1 else shift7Count value

/-- Loop of EncodeUint64 in uleb.go, with the final clearing of the
continuation flag on the last written byte (buffer[index-1] &= payloadMask).
Returns the buffer, the byte count and the ok flag. -/
def encodeUint64Loop (value : Nat) (buffer : List Nat) (index : Nat) :
    List Nat × Nat × Bool :=
  if value = 0 then (clearFlag buffer (index - 1), index, true)
  else if buffer.length ≤ index then (buffer, 0, false)
  else
    encodeUint64Loop (value >>> 7) (buffer.set index (flagged value)) (index + 1)
decreasing_by
  rw [Nat.shiftRight_eq_div_pow]
  exact Nat.div_lt_self (Nat.pos_of_ne_zero (by assumption)) (by norm_num)

/-- EncodeUint64 from uleb.go: ok is false when the buffer is too small. -/
def EncodeUint64 (value : Nat) (buffer : List Nat) : List Nat × Nat × Bool :=
  if value = 0 then
    if buffer.length = 0 then (buffer, 0, false)
    else (buffer.set 0 0, 1, true)
  else encodeUint64Loop value buffer 0

/-- Table groupCounts64 from uleb.go (14 entries). -/
def groupCounts64 : List Nat := [4, 5, 4, 5, 4, 5, 5, 4, 5, 4, 5, 4, 5, 5]

/-- Table rightShifts64 from uleb.go (14 entries). -/
def rightShifts64 : List Nat := [0, 28, 0, 27, 0, 26, 0, 32, 0, 31, 0, 30, 0, 29]

/-- Constant lowMask = 0xffffffff local to encode64. -/
def lowMask : Nat := 0xffffffff

/-- Value of the local highMask of encode64: 0xffffffff shifted left 32. -/
def highMask : Nat := 0xffffffff <<< 32

/-- Inner flush loop of encode64 for a non-final word half: writes count
groups, each carrying the continuation flag.  The Bool is false when the
bounds check (bufferPos >= len(buffer)) fired, in which case encode64
returns with byteCount 0 and ok false. -/
def flushGroups (count accum : Nat) (buffer : List Nat) (bufferPos : Nat) :
    Nat × List Nat × Nat × Bool :=
  match count with
  | 0 => (accum, buffer, bufferPos, true)
  | c + 1 =>
    if buffer.length ≤ bufferPos then (accum, buffer, bufferPos, false)
    else
      flushGroups c (accum >>> 7) (buffer.set bufferPos (flagged accum))
        (bufferPos + 1)

/-- Outcome of the flush loops in the final-word part of encode64:
either the loop ran to completion (cont, with the new accumulator, buffer
and position), or the function returned successfully (done, with the final
buffer and byte count), or the bounds check fired (insufficient). -/
inductive FlushOut where
  | cont : Nat → List Nat → Nat → FlushOut
  | done : List Nat → Nat → FlushOut
  | insufficient : List Nat → FlushOut
deriving DecidableEq

/-- Low-half flush loop for the last word of encode64, with the early
termination check (accum == 0 and srcWordHigh == 0) that clears the
continuation flag of the final byte. -/
def flushLastLow (count accum srcWordHigh : Nat) (buffer : List Nat)
    (bufferPos : Nat) : FlushOut :=
  match count with
  | 0 => .cont accum buffer bufferPos
  | c + 1 =>
    if buffer.length ≤ bufferPos then .insufficient buffer
    else if accum >>> 7 = 0 ∧ srcWordHigh = 0 then
      .done (clearFlag (buffer.set bufferPos (flagged accum)) bufferPos)
        (bufferPos + 1)
    else
      flushLastLow c (accum >>> 7) srcWordHigh
        (buffer.set bufferPos (flagged accum)) (bufferPos + 1)

/-- Unbounded high-half flush loop for the last word of encode64
(the final for {} loop), which runs until the accumulator empties. -/
def flushFinal (accum : Nat) (buffer : List Nat) (bufferPos : Nat) : FlushOut :=
  if buffer.length ≤ bufferPos then .insufficient buffer
  else if accum >>> 7 = 0 then
    .done (clearFlag (buffer.set bufferPos (flagged accum)) bufferPos)
      (bufferPos + 1)
  else
    flushFinal (accum >>> 7) (buffer.set bufferPos (flagged accum)) (bufferPos + 1)
termination_by accum
decreasing_by
  rw [Nat.shiftRight_eq_div_pow]
  exact Nat.div_lt_self
    (Nat.pos_of_ne_zero (fun h0 => by subst h0; simp_all)) (by norm_num)

/-- Outcome of the main per-word loop of encode64: a table access out of
range (a Go runtime panic), the bounds check firing, or normal completion
with the accumulator, shift index, buffer and buffer position. -/
inductive LoopOut where
  | panic : LoopOut
  | insufficient : List Nat → LoopOut
  | cont : Nat → Nat → List Nat → Nat → LoopOut
deriving DecidableEq

/-- Main loop of encode64 over all words except the last
(for i := 0; i < end; i++), processing the low and high 32-bit halves of
each word with the shift/group tables.  The shift index advances by
(shiftIndex + 1) % 15 as in the source. -/
def encodeWordsLoop (ws : List Nat) (accum shiftIndex : Nat) (buffer : List Nat)
    (bufferPos : Nat) : LoopOut :=
  match ws with
  | [] => .cont accum shiftIndex buffer bufferPos
  | srcWord :: rest =>
    match groupCounts64.get? shiftIndex with
    | none => .panic
    | some gcLow =>
      match flushGroups gcLow
          (accum ||| ((srcWord &&& lowMask) <<< (shiftIndex / 2))) buffer bufferPos with
      | (_, buffer2, _, false) => .insufficient buffer2
      | (accum2, buffer2, pos2, true) =>
        match rightShifts64.get? ((shiftIndex + 1) % 15) with
        | none => .panic
        | some shiftH =>
          match groupCounts64.get? ((shiftIndex + 1) % 15) with
          | none => .panic
          | some gcHigh =>
            match flushGroups gcHigh
                (accum2 ||| ((srcWord &&& highMask) >>> shiftH)) buffer2 pos2 with
            | (_, buffer3, _, false) => .insufficient buffer3
            | (accum4, buffer3, pos3, true) =>
              encodeWordsLoop rest accum4 (((shiftIndex + 1) % 15 + 1) % 15) buffer3 pos3

/-- encode64 from uleb.go.  The result none is a Go runtime panic (lookup
table index out of range); otherwise some (buffer, byteCount, ok), with ok
false when the output buffer is too small. -/
def encode64 (value : Nat) (buffer : List Nat) : Option (List Nat × Nat × Bool) :=
  if value = 0 then
    if buffer.length = 0 then some (buffer, 0, false)
    else some (buffer.set 0 0, 1, true)
  else
    match encodeWordsLoop (toWords value).dropLast 0 0 buffer 0 with
    | .panic => none
    | .insufficient buf => some (buf, 0, false)
    | .cont accum shiftIndex buffer1 bufferPos =>
      match groupCounts64.get? shiftIndex with
      | none => none
      | some gc =>
        match flushLastLow gc
            (accum ||| (((toWords value).getLastD 0 &&& lowMask) <<< (shiftIndex / 2)))
            ((toWords value).getLastD 0 &&& highMask) buffer1 bufferPos with
        | .insufficient buf => some (buf, 0, false)
        | .done buf n => some (buf, n, true)
        | .cont accum2 buffer2 pos2 =>
          match rightShifts64.get? ((shiftIndex + 1) % 15) with
          | none => none
          | some shiftH =>
            match groupCounts64.get? ((shiftIndex + 1) % 15) with
            | none => none
            | some _ =>
              match flushFinal
                  (accum2 ||| ((((toWords value).getLastD 0 &&& highMask)) >>> shiftH))
                  buffer2 pos2 with
              | .insufficient buf => some (buf, 0, false)
              | .done buf n => some (buf, n, true)
              | .cont _ buf pos => some (buf, pos, true)

/-- Encode from uleb.go.  On the 64-bit platform modelled here is32Bit()
is false, so Encode is encode64. -/
def Encode (value : Nat) (buffer : List Nat) : Option (List Nat × Nat × Bool) :=
  encode64 value buffer

/-- Result of Decode: the uint64 result, the numeric value of the math/big
result when that pointer is non-nil (none models a nil pointer), the byte
count and the ok flag. -/
structure DecodeResult where
  asUint : Nat
  asBigInt : Option Nat
  byteCount : Nat
  ok : Bool
deriving DecidableEq, Repr

/-- maskForBitCount from uleb.go: the complement of (all ones shifted left
by bitCount), in 64-bit arithmetic.  A Go shift of a uint64 by 64 or more
yields 0, hence the reduction modulo 2 ^ 64. -/
def maskForBitCount (bitCount : Nat) : Nat :=
  (2 ^ 64 - 1) ^^^ ((2 ^ 64 - 1) <<< bitCount % 2 ^ 64)

/-- Numeric value of a little-endian list of 64-bit words; models the value
of the big.Int built by SetBits on a 64-bit platform. -/
def fromWords : List Nat → Nat
  | [] => 0
  | w :: ws => w + 2 ^ 64 * fromWords ws

/-- Pre-seed spill loop of Decode (for preBitCount >= wordSize()): moves
completed 64-bit words of the pre-seeded value into the word list.  Returns
the word list and the remaining preValue and preBitCount. -/
def spillWords : Nat → Nat → List Nat → List Nat × Nat × Nat
  | preValue, preBitCount + 64, words =>
    spillWords (preValue >>> 64) preBitCount (words ++ [preValue])
  | preValue, preBitCount, words => (words, preValue, preBitCount)

/-- Representation choice at the end of the terminator branch of Decode:
one word becomes the uint64 result, more words become the big.Int result. -/
def decodeFinish1 (index : Nat) (words1 : List Nat) : DecodeResult :=
  if words1.length = 1 then ⟨words1.getD 0 0, none, index + 1, true⟩
  else ⟨0, some (fromWords words1), index + 1, true⟩

/-- Terminator branch of the Decode loop (the byte's continuation flag is
clear), applied to the loop state after the word-boundary step: the
trailing nonzero word is appended and the representation chosen. -/
def decodeFinish (index : Nat) (words : List Nat) (word : Nat) : DecodeResult :=
  if words.length = 0 then ⟨word, none, index + 1, true⟩
  else decodeFinish1 index (if word ≠ 0 then words ++ [word] else words)

/-- Per-byte loop of Decode.  index is the Go loop variable; words, word
and bitIndex are the accumulator state.  Falling off the end of the buffer
without a terminator leaves all results at their zero values
(the unterminated-stream failure). -/
def decodeLoop : List Nat → Nat → List Nat → Nat → Nat → DecodeResult
  | [], _, _, _, _ => ⟨0, none, 0, false⟩
  | b :: rest, index, words, word, bitIndex =>
    if wordSize ≤ bitIndex + 7 then
      if b &&& continuationMask = continuationMask then
        decodeLoop rest (index + 1)
          (words ++ [word ||| (b &&& payloadMask) <<< bitIndex % 2 ^ 64])
          ((b &&& payloadMask) >>> (7 - ((bitIndex + 7) &&& wordMask)))
          ((bitIndex + 7) &&& wordMask)
      else
        decodeFinish index
          (words ++ [word ||| (b &&& payloadMask) <<< bitIndex % 2 ^ 64])
          ((b &&& payloadMask) >>> (7 - ((bitIndex + 7) &&& wordMask)))
    else
      if b &&& continuationMask = continuationMask then
        decodeLoop rest (index + 1) words
          (word ||| (b &&& payloadMask) <<< bitIndex % 2 ^ 64) (bitIndex + 7)
      else
        decodeFinish index words
          (word ||| (b &&& payloadMask) <<< bitIndex % 2 ^ 64)

/-- Body of Decode after the clamping and masking of the pre-seed
(the first two statements of the Go function). -/
def decodeClamped (preValue preBitCount : Nat) (buffer : List Nat) : DecodeResult :=
  if buffer.length = 0 then ⟨preValue, none, 0, false⟩
  else if buffer.getD 0 0 = 0 then ⟨preValue, none, 1, true⟩
  else if buffer.getD 0 0 < 0x80 ∧ preBitCount ≤ 57 then
    ⟨buffer.getD 0 0 <<< preBitCount ||| preValue, none, 1, true⟩
  else
    decodeLoop buffer 0 (spillWords preValue preBitCount []).1
      (spillWords preValue preBitCount []).2.1
      (spillWords preValue preBitCount []).2.2

/-- Decode from uleb.go on a 64-bit platform: the pre-seed bit count is
clamped to 64, the pre-seed value masked accordingly, then the body runs. -/
def Decode (preValue preBitCount : Nat) (buffer : List Nat) : DecodeResult :=
  decodeClamped
    (preValue &&& maskForBitCount (if 64 < preBitCount then 64 else preBitCount))
    (if 64 < preBitCount then 64 else preBitCount) buffer

/-- Decoded numeric value carried by a DecodeResult: the big.Int value when
that result is non-nil, otherwise the uint64 value. -/
def resultValue (r : DecodeResult) : Nat :=
  match r.asBigInt with
  | some v => v
  | none => r.asUint

/-- Canonical ULEB128 byte sequence of a value, used as the reference form
in the correctness proofs: low 7 bits first, continuation flag on every
byte except the last. -/
def refEnc (v : Nat) : List Nat :=
  if v < 128 then [v] else (v % 128 + 128) :: refEnc (v / 128)
decreasing_by exact Nat.div_lt_self (by omega) (by norm_num)

/-- First k bytes of the encoding of v, all carrying the continuation
flag. -/
def contBytes : Nat → Nat → List Nat
  | 0, _ => []
  | k + 1, v => (v % 128 + 128) :: contBytes k (v / 128)

/-- Write a list of bytes into the buffer starting at position i, one
List.set per byte, exactly as the encoder loops do. -/
def overwrite (buffer : List Nat) (i : Nat) : List Nat → List Nat
  | [] => buffer
  | b :: bs => overwrite (buffer.set i b) (i + 1) bs

/-- Value described by the payload bits of a byte sequence: the sum of
payload i times 2 ^ (7 * i), written in Horner form. -/
def payloadSum : List Nat → Nat
  | [] => 0
  | b :: rest => (b &&& payloadMask) + 128 * payloadSum rest

/-! Basic bit-manipulation helper lemmas. -/

/-- Helper: masking with payloadMask is reduction modulo 128. -/
lemma and_payloadMask (x : Nat) : x &&& payloadMask = x % 128 := by
  have h := Nat.and_pow_two_sub_one_eq_mod x 7
  norm_num at h
  simpa [payloadMask] using h

/-- Helper: masking with wordMask is reduction modulo 64. -/
lemma and_wordMask (x : Nat) : x &&& wordMask = x % 64 := by
  have h := Nat.and_pow_two_sub_one_eq_mod x 6
  norm_num at h
  simpa [wordMask, wordSize] using h

/-- Helper: masking with lowMask is reduction modulo 2 ^ 32. -/
lemma and_lowMask (x : Nat) : x &&& lowMask = x % 2 ^ 32 := by
  have h := Nat.and_pow_two_sub_one_eq_mod x 32
  norm_num at h
  simpa [lowMask] using h

/-- Helper: a bitwise or of disjoint parts is an addition. -/
lemma lor_shiftLeft_eq_add {a n : Nat} (b : Nat) (h : a < 2 ^ n) :
    a ||| b <<< n = b * 2 ^ n + a := by
  rw [show b * 2 ^ n = 2 ^ n * b from Nat.mul_comm _ _]
  apply Nat.eq_of_testBit_eq
  intro i
  rw [Nat.testBit_lor, Nat.testBit_shiftLeft, Nat.testBit_mul_pow_two_add _ h]
  by_cases hi : i < n
  · simp [hi, Nat.not_le.mpr hi]
  · have ha : a.testBit i = false :=
      Nat.testBit_lt_two_pow
        (lt_of_lt_of_le h (Nat.pow_le_pow_right (by norm_num) (Nat.not_lt.mp hi)))
    simp [ha, Nat.not_lt.mp hi, hi]

/-- Helper: setting the continuation flag on a 7-bit payload. -/
lemma lor_128 {a : Nat} (h : a < 128) : a ||| continuationMask = a + 128 := by
  have h2 := lor_shiftLeft_eq_add (a := a) (n := 7) 1 (by simpa using h)
  rw [Nat.shiftLeft_eq] at h2
  norm_num at h2
  show a ||| 128 = a + 128
  rw [h2]
  omega

/-- Helper: shifting left then truncating keeps only the low source bits. -/
lemma shiftLeft_mod (p k m : Nat) (h : k ≤ m) :
    p <<< k % 2 ^ m = p % 2 ^ (m - k) * 2 ^ k := by
  rw [Nat.shiftLeft_eq]
  have hm : (2 : Nat) ^ m = 2 ^ (m - k) * 2 ^ k := by
    rw [← pow_add]
    congr 1
    omega
  rw [hm, Nat.mul_mod_mul_right]

/-- Helper: the high mask selects the bits from position 32 up. -/
lemma and_highMask {v : Nat} (h : v < 2 ^ 64) :
    v &&& highMask = v / 2 ^ 32 * 2 ^ 32 := by
  apply Nat.eq_of_testBit_eq
  intro i
  have hhm : highMask = (2 ^ 32 - 1) <<< 32 := by norm_num [highMask]
  rw [Nat.testBit_land, hhm, Nat.testBit_shiftLeft, Nat.testBit_two_pow_sub_one,
    ← Nat.shiftRight_eq_div_pow, ← Nat.shiftLeft_eq, Nat.testBit_shiftLeft,
    Nat.testBit_shiftRight]
  by_cases h32 : 32 ≤ i
  · by_cases h64 : i < 64
    · have : 32 + (i - 32) = i := by omega
      simp [h32, this, Nat.lt_sub_iff_add_lt.mpr, show i - 32 < 32 by omega]
    · have hv : v.testBit i = false :=
        Nat.testBit_lt_two_pow
          (lt_of_lt_of_le h (Nat.pow_le_pow_right (by norm_num) (by omega)))
      have hv2 : v.testBit (32 + (i - 32)) = false := by
        have : 32 + (i - 32) = i := by omega
        rw [this, hv]
      simp [hv, hv2]
  · simp [h32]

/-! Lemmas about overwrite, shift7Count, refEnc and contBytes. -/

/-- Helper: overwriting with the empty list changes nothing. -/
@[simp] lemma overwrite_nil (buffer : List Nat) (i : Nat) :
    overwrite buffer i [] = buffer := rfl

/-- Helper: unfolding one step of overwrite. -/
lemma overwrite_cons (buffer : List Nat) (i b : Nat) (bs : List Nat) :
    overwrite buffer i (b :: bs) = overwrite (buffer.set i b) (i + 1) bs := rfl

/-- Helper: overwrite preserves the buffer length. -/
lemma overwrite_length (l : List Nat) : ∀ (buffer : List Nat) (i : Nat),
    (overwrite buffer i l).length = buffer.length := by
  induction l with
  | nil => simp
  | cons b bs ih =>
    intro buffer i
    rw [overwrite_cons, ih]
    simp

/-- Helper: overwriting a concatenation is two successive overwrites. -/
lemma overwrite_append (l1 l2 : List Nat) : ∀ (buffer : List Nat) (i : Nat),
    overwrite buffer i (l1 ++ l2) =
      overwrite (overwrite buffer i l1) (i + l1.length) l2 := by
  induction l1 with
  | nil => simp
  | cons b bs ih =>
    intro buffer i
    rw [List.cons_append, overwrite_cons, overwrite_cons, ih,
      show i + 1 + bs.length = i + (bs.length + 1) from by omega]
    simp

/-- Helper: counting loop at zero. -/
lemma shift7Count_zero : shift7Count 0 = 0 := by
  rw [shift7Count]
  simp

/-- Helper: counting loop unfolded once on a nonzero value. -/
lemma shift7Count_pos {v : Nat} (h : v ≠ 0) :
    shift7Count v = shift7Count (v / 128) + 1 := by
  rw [shift7Count, if_neg h, Nat.shiftRight_eq_div_pow]

/-- Helper: the group count of a value is at most k exactly when the value
fits in 7 * k bits. -/
lemma shift7Count_le_iff : ∀ (k v : Nat), shift7Count v ≤ k ↔ v < 2 ^ (7 * k) := by
  intro k
  induction k with
  | zero =>
    intro v
    by_cases hv : v = 0
    · subst hv
      simp [shift7Count_zero]
    · rw [shift7Count_pos hv]
      simp
      exact hv
  | succ k ih =>
    intro v
    by_cases hv : v = 0
    · subst hv
      simp [shift7Count_zero]
    · rw [shift7Count_pos hv, Nat.succ_le_succ_iff, ih,
        Nat.div_lt_iff_lt_mul (by norm_num : (0:Nat) < 128),
        show (2:Nat) ^ (7 * k) * 128 = 2 ^ (7 * (k + 1)) from by
          rw [show 7 * (k + 1) = 7 * k + 7 from by ring, pow_add]
          norm_num]

/-- Helper: refEnc of a final (single-byte) value. -/
lemma refEnc_lt {v : Nat} (h : v < 128) : refEnc v = [v] := by
  rw [refEnc, if_pos h]

/-- Helper: refEnc of a value needing a continuation byte. -/
lemma refEnc_ge {v : Nat} (h : 128 ≤ v) :
    refEnc v = (v % 128 + 128) :: refEnc (v / 128) := by
  rw [refEnc, if_neg (by omega)]

/-- Helper: EncodedSizeUint64 on a nonzero value is the counting loop. -/
lemma EncodedSizeUint64_of_ne {v : Nat} (h : v ≠ 0) :
    EncodedSizeUint64 v = shift7Count v := by
  rw [EncodedSizeUint64, if_neg h]

/-- Helper: length of the reference encoding is the encoded size. -/
lemma refEnc_length : ∀ v, (refEnc v).length = EncodedSizeUint64 v := by
  intro v
  induction v using Nat.strong_induction_on with
  | _ v ih =>
    by_cases hsmall : v < 128
    · rw [refEnc_lt hsmall, EncodedSizeUint64]
      by_cases hv : v = 0
      · simp [hv]
      · rw [if_neg hv, shift7Count_pos hv, Nat.div_eq_of_lt hsmall,
          shift7Count_zero]
        simp
    · push_neg at hsmall
      have hdiv : v / 128 < v := Nat.div_lt_self (by omega) (by norm_num)
      have hdiv0 : v / 128 ≠ 0 := by
        have : 1 ≤ v / 128 := (Nat.one_le_div_iff (by norm_num)).mpr hsmall
        omega
      rw [refEnc_ge hsmall, List.length_cons, ih _ hdiv,
        EncodedSizeUint64_of_ne hdiv0, EncodedSizeUint64_of_ne (show v ≠ 0 from by omega),
        shift7Count_pos (show v ≠ 0 from by omega)]

/-- Helper: length of the continuation-byte prefix. -/
lemma contBytes_length : ∀ (k v : Nat), (contBytes k v).length = k := by
  intro k
  induction k with
  | zero => intro v; rfl
  | succ k ih => intro v; rw [contBytes, List.length_cons, ih]

/-- Helper: the continuation-byte prefix only depends on the low bits. -/
lemma contBytes_mod : ∀ (k v m : Nat), 7 * k ≤ m →
    contBytes k (v % 2 ^ m) = contBytes k v := by
  intro k
  induction k with
  | zero => intro v m _; rfl
  | succ k ih =>
    intro v m h
    have hm : (2:Nat) ^ m = 128 * 2 ^ (m - 7) := by
      rw [show (128:Nat) = 2 ^ 7 from by norm_num, ← pow_add]
      congr 1
      omega
    rw [contBytes, contBytes]
    congr 1
    · rw [Nat.mod_mod_of_dvd _ (by rw [hm]; exact Dvd.intro _ rfl)]
    · rw [hm, Nat.mod_mul_right_div_self, ih _ _ (by omega)]

/-- Helper: decomposition of the reference encoding into k continuation
bytes followed by the encoding of the remaining bits. -/
lemma refEnc_decomp : ∀ (k v : Nat), 2 ^ (7 * k) ≤ v →
    refEnc v = contBytes k v ++ refEnc (v >>> (7 * k)) := by
  intro k
  induction k with
  | zero => intro v _; simp [contBytes]
  | succ k ih =>
    intro v h
    have h128 : (128:Nat) ≤ v := by
      have : (2:Nat) ^ 7 ≤ 2 ^ (7 * (k + 1)) :=
        Nat.pow_le_pow_right (by norm_num) (by omega)
      omega
    have hquot : 2 ^ (7 * k) ≤ v / 128 := by
      rw [Nat.le_div_iff_mul_le (by norm_num : (0:Nat) < 128)]
      calc 2 ^ (7 * k) * 128 = 2 ^ (7 * (k + 1)) := by
            rw [show 7 * (k + 1) = 7 * k + 7 from by ring, pow_add]
            norm_num
        _ ≤ v := h
    have hshift : (v / 128) >>> (7 * k) = v >>> (7 * (k + 1)) := by
      rw [Nat.shiftRight_eq_div_pow, Nat.shiftRight_eq_div_pow,
        Nat.div_div_eq_div_mul,
        show 128 * 2 ^ (7 * k) = 2 ^ (7 * (k + 1)) from by
          rw [show 7 * (k + 1) = 7 * k + 7 from by ring, pow_add]
          ring_nf]
    rw [refEnc_ge h128, contBytes, ih _ hquot, hshift, List.cons_append]

/-- Helper: getD after set at the same in-range position. -/
lemma getD_set_self {l : List Nat} {i : Nat} (a : Nat) (h : i < l.length) :
    (l.set i a).getD i 0 = a := by
  rw [List.getD_eq_getElem?_getD, List.getElem?_set_self (by simpa using h)]
  rfl

/-- Helper: the flagged byte is the low 7-bit group plus the flag. -/
lemma flagged_eq (x : Nat) : flagged x = x % 128 + 128 := by
  rw [flagged, and_payloadMask, lor_128 (Nat.mod_lt _ (by norm_num))]

/-- Helper: clearing the flag of a just-written byte keeps its payload. -/
lemma clearFlag_set {buffer : List Nat} {pos : Nat} (x : Nat)
    (h : pos < buffer.length) :
    clearFlag (buffer.set pos x) pos = buffer.set pos (x % 128) := by
  rw [clearFlag, getD_set_self x (by simpa using h), and_payloadMask, List.set_set]

/-- Helper: full characterization of the EncodeUint64 loop on a nonzero
value with enough room: it writes the reference encoding. -/
lemma encodeUint64Loop_spec : ∀ (v : Nat) (buffer : List Nat) (i : Nat),
    v ≠ 0 → i + shift7Count v ≤ buffer.length →
    encodeUint64Loop v buffer i =
      (overwrite buffer i (refEnc v), i + shift7Count v, true) := by
  intro v
  induction v using Nat.strong_induction_on with
  | _ v ih =>
    intro buffer i hv hlen
    have h7 : v >>> 7 = v / 128 := by
      rw [Nat.shiftRight_eq_div_pow]
    have hs1 : 1 ≤ shift7Count v := by
      rw [shift7Count_pos hv]
      omega
    have hi : i < buffer.length := by omega
    rw [encodeUint64Loop, if_neg hv, if_neg (by omega : ¬ buffer.length ≤ i)]
    by_cases hsmall : v < 128
    · have hdiv : v >>> 7 = 0 := by
        rw [h7]
        exact Nat.div_eq_of_lt hsmall
      have hbyte : flagged v % 128 = v := by
        rw [flagged_eq]
        omega
      rw [hdiv, encodeUint64Loop, if_pos rfl,
        show i + 1 - 1 = i from by omega, clearFlag_set (flagged v) hi, hbyte,
        refEnc_lt hsmall, overwrite_cons, overwrite_nil,
        shift7Count_pos hv, Nat.div_eq_of_lt hsmall, shift7Count_zero]
    · push_neg at hsmall
      have hdivlt : v / 128 < v := Nat.div_lt_self (by omega) (by norm_num)
      have hdiv0 : v / 128 ≠ 0 := by
        have : 1 ≤ v / 128 := (Nat.one_le_div_iff (by norm_num)).mpr hsmall
        omega
      have hrec := ih (v / 128) hdivlt (buffer.set i (flagged v)) (i + 1)
        hdiv0
        (by
          rw [List.length_set]
          have := shift7Count_pos hv
          omega)
      rw [h7, hrec, flagged_eq, refEnc_ge hsmall, overwrite_cons,
        shift7Count_pos hv,
        show i + 1 + shift7Count (v / 128) = i + (shift7Count (v / 128) + 1)
          from by omega]

/-- Helper: full characterization of EncodeUint64 with enough room. -/
lemma EncodeUint64_spec (v : Nat) (buffer : List Nat)
    (hlen : EncodedSizeUint64 v ≤ buffer.length) :
    EncodeUint64 v buffer =
      (overwrite buffer 0 (refEnc v), EncodedSizeUint64 v, true) := by
  by_cases hv : v = 0
  · subst hv
    have h1 : EncodedSizeUint64 0 = 1 := by
      rw [EncodedSizeUint64]
      simp
    rw [h1] at hlen
    rw [EncodeUint64, if_pos rfl, if_neg (by omega), h1,
      show refEnc 0 = [0] from refEnc_lt (by norm_num), overwrite_cons,
      overwrite_nil]
  · rw [EncodeUint64, if_neg hv, EncodedSizeUint64_of_ne hv,
      encodeUint64Loop_spec v buffer 0 hv
        (by rw [EncodedSizeUint64_of_ne hv] at hlen; omega),
      Nat.zero_add]

/-- Helper: toWords at zero. -/
lemma toWords_zero : toWords 0 = [] := by
  rw [toWords]
  simp

/-- Helper: toWords unfolded once on a nonzero value. -/
lemma toWords_pos {v : Nat} (h : v ≠ 0) :
    toWords v = v % 2 ^ 64 :: toWords (v / 2 ^ 64) := by
  rw [toWords, if_neg h]

/-- Helper: toWords of a single-word value. -/
lemma toWords_small {v : Nat} (h1 : v ≠ 0) (h2 : v < 2 ^ 64) :
    toWords v = [v] := by
  rw [toWords_pos h1, Nat.mod_eq_of_lt h2, Nat.div_eq_of_lt h2, toWords_zero]

/-- Helper: a value is bounded by the width of its word list. -/
lemma toWords_lt : ∀ v, v < 2 ^ (64 * (toWords v).length) := by
  intro v
  induction v using Nat.strong_induction_on with
  | _ v ih =>
    by_cases hv : v = 0
    · subst hv
      rw [toWords_zero]
      simp
    · have hdivlt : v / 2 ^ 64 < v :=
        Nat.div_lt_self (by omega) (by norm_num)
      have hq := ih (v / 2 ^ 64) hdivlt
      rw [toWords_pos hv, List.length_cons,
        show 64 * ((toWords (v / 2 ^ 64)).length + 1) =
          64 * (toWords (v / 2 ^ 64)).length + 64 from by ring, pow_add]
      exact (Nat.div_lt_iff_lt_mul (by positivity)).mp hq

/-- Helper: the default value does not matter for getLastD of a nonempty
list. -/
lemma getLastD_irrel {l : List Nat} (h : l ≠ []) (a b : Nat) :
    l.getLastD a = l.getLastD b := by
  cases l with
  | nil => exact absurd rfl h
  | cons x xs => rw [List.getLastD_cons, List.getLastD_cons]

/-- Helper: the last word of toWords is the top base-2^64 digit, and it is
nonzero. -/
lemma toWords_last : ∀ v, v ≠ 0 → toWords v ≠ [] ∧
    (toWords v).getLastD 0 = v / 2 ^ (64 * ((toWords v).length - 1)) ∧
    v / 2 ^ (64 * ((toWords v).length - 1)) ≠ 0 := by
  intro v
  induction v using Nat.strong_induction_on with
  | _ v ih =>
    intro hv
    by_cases hsmall : v < 2 ^ 64
    · rw [toWords_small hv hsmall]
      refine ⟨by simp, ?_, ?_⟩ <;> simp [hv]
    · push_neg at hsmall
      have hdivlt : v / 2 ^ 64 < v := Nat.div_lt_self (by omega) (by norm_num)
      have hdiv0 : v / 2 ^ 64 ≠ 0 := by
        have : 1 ≤ v / 2 ^ 64 := (Nat.one_le_div_iff (by positivity)).mpr hsmall
        omega
      obtain ⟨htne, hlast, hne⟩ := ih (v / 2 ^ 64) hdivlt hdiv0
      have hlen1 : 1 ≤ (toWords (v / 2 ^ 64)).length := by
        cases hh : toWords (v / 2 ^ 64) with
        | nil => exact absurd hh htne
        | cons x xs => simp
      refine ⟨by rw [toWords_pos hv]; simp, ?_, ?_⟩
      · rw [toWords_pos hv, List.getLastD_cons,
          getLastD_irrel htne (v % 2 ^ 64) 0, hlast, List.length_cons,
          Nat.div_div_eq_div_mul, ← pow_add,
          show 64 + 64 * ((toWords (v / 2 ^ 64)).length - 1) =
            64 * ((toWords (v / 2 ^ 64)).length + 1 - 1) from by omega]
      · rw [toWords_pos hv, List.length_cons,
          show 64 * ((toWords (v / 2 ^ 64)).length + 1 - 1) =
            64 + 64 * ((toWords (v / 2 ^ 64)).length - 1) from by omega,
          pow_add, ← Nat.div_div_eq_div_mul]
        exact hne

/-- Helper: the reference encoding is never empty. -/
lemma refEnc_length_pos (v : Nat) : 1 ≤ (refEnc v).length := by
  by_cases h : v < 128
  · rw [refEnc_lt h]
    simp
  · rw [refEnc_ge (by omega)]
    simp

/-- Helper: the final unbounded flush loop of encode64 writes exactly the
reference encoding of its accumulator (clearing the flag on the last
byte). -/
lemma flushFinal_spec : ∀ (accum : Nat) (buffer : List Nat) (pos : Nat),
    pos + (refEnc accum).length ≤ buffer.length →
    flushFinal accum buffer pos =
      .done (overwrite buffer pos (refEnc accum)) (pos + (refEnc accum).length) := by
  intro accum
  induction accum using Nat.strong_induction_on with
  | _ accum ih =>
    intro buffer pos hlen
    have h7 : accum >>> 7 = accum / 128 := by rw [Nat.shiftRight_eq_div_pow]
    have hL := refEnc_length_pos accum
    have hpos : pos < buffer.length := by omega
    rw [flushFinal, if_neg (by omega : ¬ buffer.length ≤ pos), h7]
    by_cases hsmall : accum < 128
    · rw [if_pos (Nat.div_eq_of_lt hsmall), clearFlag_set (flagged accum) hpos,
        show flagged accum % 128 = accum from by rw [flagged_eq]; omega,
        refEnc_lt hsmall, overwrite_cons, overwrite_nil, List.length_singleton]
    · push_neg at hsmall
      have hdivlt : accum / 128 < accum := Nat.div_lt_self (by omega) (by norm_num)
      have hdiv0 : accum / 128 ≠ 0 := by
        have : 1 ≤ accum / 128 := (Nat.one_le_div_iff (by norm_num)).mpr hsmall
        omega
      have hlen' : (refEnc accum).length = (refEnc (accum / 128)).length + 1 := by
        rw [refEnc_ge hsmall, List.length_cons]
      have hrec := ih (accum / 128) hdivlt (buffer.set pos (flagged accum)) (pos + 1)
        (by rw [List.length_set]; omega)
      rw [if_neg hdiv0, hrec, flagged_eq, refEnc_ge hsmall, overwrite_cons,
        List.length_cons,
        show pos + 1 + (refEnc (accum / 128)).length =
          pos + ((refEnc (accum / 128)).length + 1) from by omega]

/-- Helper: the low-half flush loop of the last word, when the remaining
high bits are zero and the group count suffices, terminates the encoding
with the reference bytes of the accumulator. -/
lemma flushLastLow_done : ∀ (gc accum : Nat) (buffer : List Nat) (pos : Nat),
    accum ≠ 0 → shift7Count accum ≤ gc →
    pos + shift7Count accum ≤ buffer.length →
    flushLastLow gc accum 0 buffer pos =
      .done (overwrite buffer pos (refEnc accum)) (pos + shift7Count accum) := by
  intro gc
  induction gc with
  | zero =>
    intro accum buffer pos ha hs _
    exact absurd hs (by rw [shift7Count_pos ha]; omega)
  | succ c ih =>
    intro accum buffer pos ha hs hlen
    have h7 : accum >>> 7 = accum / 128 := by rw [Nat.shiftRight_eq_div_pow]
    have hs1 : 1 ≤ shift7Count accum := by rw [shift7Count_pos ha]; omega
    have hpos : pos < buffer.length := by omega
    rw [flushLastLow, if_neg (by omega : ¬ buffer.length ≤ pos), h7]
    by_cases hsmall : accum < 128
    · rw [if_pos ⟨Nat.div_eq_of_lt hsmall, rfl⟩,
        clearFlag_set (flagged accum) hpos,
        show flagged accum % 128 = accum from by rw [flagged_eq]; omega,
        refEnc_lt hsmall, overwrite_cons, overwrite_nil,
        show shift7Count accum = 1 from by
          rw [shift7Count_pos ha, Nat.div_eq_of_lt hsmall, shift7Count_zero]]
    · push_neg at hsmall
      have hdiv0 : accum / 128 ≠ 0 := by
        have : 1 ≤ accum / 128 := (Nat.one_le_div_iff (by norm_num)).mpr hsmall
        omega
      have hsc : shift7Count (accum / 128) ≤ c := by
        rw [shift7Count_pos ha] at hs
        omega
      have hrec := ih (accum / 128) (buffer.set pos (flagged accum)) (pos + 1)
        hdiv0 hsc
        (by
          rw [List.length_set]
          rw [shift7Count_pos ha] at hlen
          omega)
      rw [if_neg (fun h => hdiv0 h.1), hrec, flagged_eq, refEnc_ge hsmall,
        overwrite_cons, shift7Count_pos ha,
        show pos + 1 + shift7Count (accum / 128) =
          pos + (shift7Count (accum / 128) + 1) from by omega]

/-- Helper: the low-half flush loop of the last word, when it cannot
terminate within its group count (high bits remain or the accumulator is
too large), writes exactly count flagged bytes. -/
lemma flushLastLow_cont : ∀ (gc accum swh : Nat) (buffer : List Nat) (pos : Nat),
    (swh ≠ 0 ∨ gc < shift7Count accum) →
    pos + gc ≤ buffer.length →
    flushLastLow gc accum swh buffer pos =
      .cont (accum >>> (7 * gc)) (overwrite buffer pos (contBytes gc accum))
        (pos + gc) := by
  intro gc
  induction gc with
  | zero =>
    intro accum swh buffer pos _ _
    rw [show flushLastLow 0 accum swh buffer pos = .cont accum buffer pos from rfl]
    rw [show 7 * 0 = 0 from rfl, Nat.shiftRight_zero]
    simp [contBytes]
  | succ c ih =>
    intro accum swh buffer pos hcond hlen
    have h7 : accum >>> 7 = accum / 128 := by rw [Nat.shiftRight_eq_div_pow]
    have hne : ¬ (accum / 128 = 0 ∧ swh = 0) := by
      rcases hcond with h | h
      · exact fun hh => h hh.2
      · intro hh
        have ha : accum ≠ 0 := by
          intro h0
          rw [h0, shift7Count_zero] at h
          omega
        rw [shift7Count_pos ha] at h
        have : accum / 128 ≠ 0 := by
          intro h0
          rw [h0, shift7Count_zero] at h
          omega
        exact this hh.1
    have hcond2 : swh ≠ 0 ∨ c < shift7Count (accum / 128) := by
      rcases hcond with h | h
      · exact Or.inl h
      · right
        have ha : accum ≠ 0 := by
          intro h0
          rw [h0, shift7Count_zero] at h
          omega
        rw [shift7Count_pos ha] at h
        omega
    rw [flushLastLow, if_neg (by omega : ¬ buffer.length ≤ pos), h7, if_neg hne,
      ih (accum / 128) swh (buffer.set pos (flagged accum)) (pos + 1) hcond2
        (by rw [List.length_set]; omega),
      flagged_eq, contBytes, overwrite_cons,
      show (accum / 128) >>> (7 * c) = accum >>> (7 * (c + 1)) from by
        rw [Nat.shiftRight_eq_div_pow, Nat.shiftRight_eq_div_pow,
          Nat.div_div_eq_div_mul,
          show 128 * 2 ^ (7 * c) = 2 ^ (7 * (c + 1)) from by
            rw [show 7 * (c + 1) = 7 + 7 * c from by ring, pow_add]
            norm_num],
      show pos + 1 + c = pos + (c + 1) from by omega]

/-- Helper: recombination of the low-half leftover bits and the shifted
high bits in the last-word part of encode64. -/
lemma accum3_eq {v : Nat} (hlt : v < 2 ^ 64) :
    (v % 2 ^ 32) >>> 28 ||| (v &&& highMask) >>> 28 = v >>> 28 := by
  have h1 : (v % 2 ^ 32) >>> 28 = v / 2 ^ 28 % 2 ^ 4 := by
    rw [Nat.shiftRight_eq_div_pow,
      show (2:Nat) ^ 32 = 2 ^ 28 * 2 ^ 4 from by norm_num,
      Nat.mod_mul_right_div_self]
  have h2 : (v &&& highMask) >>> 28 = v / 2 ^ 28 / 2 ^ 4 * 2 ^ 4 := by
    rw [and_highMask hlt, Nat.shiftRight_eq_div_pow,
      show v / 2 ^ 32 * 2 ^ 32 = v / 2 ^ 32 * 2 ^ 4 * 2 ^ 28 from by
        rw [show (2:Nat) ^ 32 = 2 ^ 4 * 2 ^ 28 from by norm_num]
        ring,
      Nat.mul_div_cancel _ (by norm_num : (0:Nat) < 2 ^ 28),
      show v / 2 ^ 32 = v / 2 ^ 28 / 2 ^ 4 from by
        rw [Nat.div_div_eq_div_mul]
        norm_num]
  rw [h1, h2, Nat.shiftRight_eq_div_pow, ← Nat.shiftLeft_eq,
    lor_shiftLeft_eq_add _ (Nat.mod_lt _ (by norm_num))]
  exact Nat.div_add_mod' _ _

/-- Helper: encode64 on a nonzero single-word value with enough room
produces exactly the canonical bytes and size, like EncodeUint64. -/
lemma encode64_single (v : Nat) (buffer : List Nat) (hv : v ≠ 0)
    (hlt : v < 2 ^ 64) (hlen : EncodedSizeUint64 v ≤ buffer.length) :
    encode64 v buffer =
      some (overwrite buffer 0 (refEnc v), EncodedSizeUint64 v, true) := by
  have htw : toWords v = [v] := toWords_small hv hlt
  have hsz : EncodedSizeUint64 v = shift7Count v := EncodedSizeUint64_of_ne hv
  rw [encode64, if_neg hv, htw]
  simp only [List.dropLast_single,
    show ([v] : List Nat).getLastD 0 = v from rfl,
    show encodeWordsLoop [] 0 0 buffer 0 = .cont 0 0 buffer 0 from rfl,
    show groupCounts64.get? 0 = some 4 from rfl,
    show (0 : Nat) / 2 = 0 from rfl, Nat.shiftLeft_zero, Nat.zero_or,
    and_lowMask]
  by_cases hA : v < 2 ^ 28
  · have hvmod : v % 2 ^ 32 = v := Nat.mod_eq_of_lt (by omega)
    have hswh : v &&& highMask = 0 := by
      rw [and_highMask hlt, Nat.div_eq_of_lt (by omega)]
      simp
    have hs4 : shift7Count v ≤ 4 := (shift7Count_le_iff 4 v).mpr (by norm_num at hA ⊢; omega)
    rw [hvmod, hswh,
      flushLastLow_done 4 v buffer 0 hv hs4 (by omega)]
    simp only [Nat.zero_add, hsz]
  · push_neg at hA
    have h5 : 5 ≤ shift7Count v := by
      by_contra hcon
      push_neg at hcon
      have := (shift7Count_le_iff 4 v).mp (by omega)
      norm_num at this
      omega
    have hcond : v &&& highMask ≠ 0 ∨ 4 < shift7Count (v % 2 ^ 32) := by
      by_cases h32 : v < 2 ^ 32
      · right
        rw [Nat.mod_eq_of_lt h32]
        omega
      · left
        rw [and_highMask hlt]
        push_neg at h32
        have : 1 ≤ v / 2 ^ 32 := (Nat.one_le_div_iff (by positivity)).mpr h32
        positivity
    have hdec := refEnc_decomp 4 v (by norm_num; omega)
    rw [show (7 * 4 : Nat) = 28 from by norm_num] at hdec
    have hlen4 : EncodedSizeUint64 v = 4 + EncodedSizeUint64 (v >>> 28) := by
      rw [← refEnc_length, ← refEnc_length, hdec, List.length_append,
        contBytes_length]
    rw [flushLastLow_cont 4 (v % 2 ^ 32) (v &&& highMask) buffer 0 hcond
      (by omega)]
    simp only [Nat.zero_add,
      show (7 * 4 : Nat) = 28 from by norm_num,
      show rightShifts64.get? ((0 + 1) % 15) = some 28 from rfl,
      show groupCounts64.get? ((0 + 1) % 15) = some 5 from rfl,
      contBytes_mod 4 v 32 (by norm_num), accum3_eq hlt]
    have hlenB : 4 + (refEnc (v >>> 28)).length ≤
        (overwrite buffer 0 (contBytes 4 v)).length := by
      rw [overwrite_length, refEnc_length]
      omega
    rw [flushFinal_spec (v >>> 28) (overwrite buffer 0 (contBytes 4 v)) 4 hlenB,
      hdec, overwrite_append, contBytes_length, Nat.zero_add, hlen4, refEnc_length]

/-! Decode-side helper lemmas. -/

/-- Helper: the mask for a clamped bit count is the usual low-bit mask. -/
lemma maskForBitCount_eq {n : Nat} (h : n ≤ 64) :
    maskForBitCount n = 2 ^ n - 1 := by
  have hmod : (2 ^ 64 - 1) % 2 ^ (64 - n) = 2 ^ (64 - n) - 1 := by
    obtain ⟨k, hk⟩ : (2:Nat) ^ (64 - n) ∣ 2 ^ 64 := pow_dvd_pow 2 (by omega)
    have hpos : (0:Nat) < 2 ^ (64 - n) := by positivity
    have hk1 : k ≠ 0 := by
      intro h0
      rw [h0, Nat.mul_zero] at hk
      have : (0:Nat) < 2 ^ 64 := by positivity
      omega
    obtain ⟨j, rfl⟩ : ∃ j, k = j + 1 := ⟨k - 1, by omega⟩
    have hM : (2:Nat) ^ 64 = 2 ^ (64 - n) * j + 2 ^ (64 - n) := by
      rw [hk]
      ring
    have h2 : (2:Nat) ^ 64 - 1 = (2 ^ (64 - n) - 1) + 2 ^ (64 - n) * j := by
      omega
    rw [h2, Nat.add_mul_mod_self_left, Nat.mod_eq_of_lt (by omega)]
  rw [maskForBitCount, shiftLeft_mod _ _ _ h, hmod, ← Nat.shiftLeft_eq]
  apply Nat.eq_of_testBit_eq
  intro i
  rw [Nat.testBit_xor, Nat.testBit_shiftLeft, Nat.testBit_two_pow_sub_one,
    Nat.testBit_two_pow_sub_one, Nat.testBit_two_pow_sub_one]
  by_cases h1 : i < n
  · simp [h1, (show i < 64 from by omega), (show ¬ n ≤ i from by omega)]
  · by_cases h2 : i < 64
    · simp [h1, h2, (show n ≤ i from by omega),
        (show i - n < 64 - n from by omega)]
    · simp [h1, h2, (show n ≤ i from by omega),
        (show ¬ i - n < 64 - n from by omega)]

/-- Helper: masking a value with maskForBitCount keeps its low bits. -/
lemma and_maskForBitCount {n : Nat} (h : n ≤ 64) (x : Nat) :
    x &&& maskForBitCount n = x % 2 ^ n := by
  rw [maskForBitCount_eq h, Nat.and_pow_two_sub_one_eq_mod]

/-- Helper: the spill loop is the identity when the bit count is below the
word size. -/
lemma spillWords_lt {pv pbc : Nat} (ws : List Nat) (h : pbc < 64) :
    spillWords pv pbc ws = (ws, pv, pbc) := by
  interval_cases pbc <;> rfl

/-- Helper: the spill loop with a bit count of exactly 64 spills one word. -/
lemma spillWords_64 (pv : Nat) (ws : List Nat) :
    spillWords pv 64 ws = (ws ++ [pv], pv >>> 64, 0) := rfl

/-- Helper: value of a word list extended on the most-significant end. -/
lemma fromWords_append (l : List Nat) (x : Nat) :
    fromWords (l ++ [x]) = fromWords l + x * 2 ^ (64 * l.length) := by
  induction l with
  | nil => simp [fromWords]
  | cons w ws ih =>
    rw [List.cons_append,
      show fromWords (w :: (ws ++ [x])) = w + 2 ^ 64 * fromWords (ws ++ [x])
        from rfl,
      show fromWords (w :: ws) = w + 2 ^ 64 * fromWords ws from rfl,
      ih, List.length_cons,
      show 64 * (ws.length + 1) = 64 * ws.length + 64 from by ring, pow_add]
    ring

/-- Helper: the terminator branch of the Decode loop returns ok, the right
byte count, and the value accumulated in the word list and trailing word;
when it chooses the uint64 representation that value fits in 64 bits. -/
lemma decodeFinish_spec (index : Nat) (words : List Nat) (word : Nat)
    (hws : ∀ w ∈ words, w < 2 ^ 64) (hw : word < 2 ^ 64) :
    (decodeFinish index words word).ok = true ∧
    (decodeFinish index words word).byteCount = index + 1 ∧
    resultValue (decodeFinish index words word) =
      fromWords words + word * 2 ^ (64 * words.length) ∧
    ((decodeFinish index words word).asBigInt = none →
      (decodeFinish index words word).asUint < 2 ^ 64) := by
  cases words with
  | nil =>
    rw [decodeFinish, if_pos (by simp : ([] : List Nat).length = 0)]
    exact ⟨rfl, rfl, by simp [resultValue, fromWords], fun _ => hw⟩
  | cons w ws =>
    have hwlt : w < 2 ^ 64 := hws w (by simp)
    rw [decodeFinish, if_neg (by simp)]
    by_cases hw0 : word = 0
    · rw [if_neg (fun hcon => hcon hw0)]
      subst hw0
      cases ws with
      | nil =>
        rw [decodeFinish1, if_pos (by simp)]
        exact ⟨rfl, rfl, by simp [resultValue, fromWords], fun _ => hwlt⟩
      | cons y ys =>
        rw [decodeFinish1, if_neg (by simp)]
        refine ⟨rfl, rfl, by simp [resultValue], fun hcon => absurd hcon (by simp)⟩
    · rw [if_pos hw0, decodeFinish1, if_neg (by simp)]
      refine ⟨rfl, rfl, ?_, fun hcon => absurd hcon (by simp)⟩
      simp only [resultValue]
      exact fromWords_append (w :: ws) word

/-- Helper: a value below 2 ^ k shifted up by n stays below 2 ^ (k + n). -/
lemma mul_pow_lt {a k n e : Nat} (ha : a < 2 ^ k) (he : k + n ≤ e) :
    a * 2 ^ n < 2 ^ e := by
  have hpos : (0:Nat) < 2 ^ n := by positivity
  calc a * 2 ^ n < 2 ^ k * 2 ^ n := (Nat.mul_lt_mul_right hpos).mpr ha
    _ = 2 ^ (k + n) := (pow_add 2 k n).symm
    _ ≤ 2 ^ e := Nat.pow_le_pow_right (by norm_num) he

/-- Helper: value bookkeeping for a decode step that stays inside the
current machine word. -/
lemma decode_step_plain (word p S bi n fw : Nat) :
    fw + (word + p * 2 ^ bi + S * 2 ^ (bi + 7)) * 2 ^ (64 * n) =
    fw + (word + (p + 128 * S) * 2 ^ bi) * 2 ^ (64 * n) := by
  rw [pow_add, show (2:Nat) ^ 7 = 128 from by norm_num]
  ring

/-- Helper: value bookkeeping for a decode step that crosses a machine-word
boundary, splitting the payload between the closed word and the carry. -/
lemma decode_step_overflow (word p S n fw m b2 bi : Nat)
    (hm : m + bi = 64) (hb2 : b2 + 64 = bi + 7) :
    fw + (word + p % 2 ^ m * 2 ^ bi) * 2 ^ (64 * n) +
      (p / 2 ^ m + S * 2 ^ b2) * 2 ^ (64 * (n + 1)) =
    fw + (word + (p + 128 * S) * 2 ^ bi) * 2 ^ (64 * n) := by
  have h3 := Nat.mod_add_div p (2 ^ m)
  have h1 : (2:Nat) ^ (64 * (n + 1)) = 2 ^ m * 2 ^ bi * 2 ^ (64 * n) := by
    calc (2:Nat) ^ (64 * (n + 1)) = 2 ^ (m + bi + 64 * n) := by
          rw [show 64 * (n + 1) = 64 + 64 * n from by ring, ← hm]
      _ = 2 ^ (m + bi) * 2 ^ (64 * n) := pow_add 2 _ _
      _ = 2 ^ m * 2 ^ bi * 2 ^ (64 * n) := by rw [pow_add]
  have h2 : (2:Nat) ^ b2 * 2 ^ (64 * (n + 1)) = 128 * (2 ^ bi * 2 ^ (64 * n)) := by
    calc (2:Nat) ^ b2 * 2 ^ (64 * (n + 1)) = 2 ^ (b2 + 64 * (n + 1)) :=
          (pow_add 2 _ _).symm
      _ = 2 ^ (7 + (bi + 64 * n)) := by
          rw [show b2 + 64 * (n + 1) = 7 + (bi + 64 * n) from by omega]
      _ = 2 ^ 7 * 2 ^ (bi + 64 * n) := pow_add 2 _ _
      _ = 128 * (2 ^ bi * 2 ^ (64 * n)) := by
          rw [pow_add]
          norm_num
  calc fw + (word + p % 2 ^ m * 2 ^ bi) * 2 ^ (64 * n) +
        (p / 2 ^ m + S * 2 ^ b2) * 2 ^ (64 * (n + 1))
      = fw + (word + p % 2 ^ m * 2 ^ bi) * 2 ^ (64 * n) +
        (p / 2 ^ m * 2 ^ (64 * (n + 1)) + S * (2 ^ b2 * 2 ^ (64 * (n + 1)))) := by
        ring
    _ = fw + (word + (p % 2 ^ m + 2 ^ m * (p / 2 ^ m) + 128 * S) * 2 ^ bi) *
        2 ^ (64 * n) := by
        rw [h2, h1]
        ring
    _ = fw + (word + (p + 128 * S) * 2 ^ bi) * 2 ^ (64 * n) := by rw [h3]

/-- Helper: a buffer whose bytes all carry the continuation flag decodes to
the unterminated failure, regardless of the loop state. -/
lemma decodeLoop_unterminated : ∀ (buffer : List Nat),
    (∀ b ∈ buffer, b &&& continuationMask = continuationMask) →
    ∀ index words word bitIndex,
    decodeLoop buffer index words word bitIndex = ⟨0, none, 0, false⟩ := by
  intro buffer
  induction buffer with
  | nil =>
    intro _ index words word bitIndex
    rfl
  | cons b rest ih =>
    intro hall index words word bitIndex
    have hb := hall b (by simp)
    have hrest : ∀ x ∈ rest, x &&& continuationMask = continuationMask :=
      fun x hx => hall x (by simp [hx])
    rw [decodeLoop]
    by_cases hover : wordSize ≤ bitIndex + 7
    · rw [if_pos hover, if_pos hb, ih hrest]
    · rw [if_neg hover, if_pos hb, ih hrest]

/-- Helper: state facts for one decode step that crosses a machine-word
boundary (bitIndex + 7 reaches 64). -/
lemma decode_overflow_facts (b word bitIndex : Nat) (hword : word < 2 ^ bitIndex)
    (hbi : bitIndex < 64) (hover : 64 ≤ bitIndex + 7) :
    (bitIndex + 7) &&& wordMask = bitIndex + 7 - 64 ∧
    word ||| (b &&& payloadMask) <<< bitIndex % 2 ^ 64 =
      word + (b &&& payloadMask) % 2 ^ (64 - bitIndex) * 2 ^ bitIndex ∧
    word ||| (b &&& payloadMask) <<< bitIndex % 2 ^ 64 < 2 ^ 64 ∧
    (b &&& payloadMask) >>> (7 - ((bitIndex + 7) &&& wordMask)) =
      (b &&& payloadMask) / 2 ^ (64 - bitIndex) ∧
    (b &&& payloadMask) / 2 ^ (64 - bitIndex) < 2 ^ (bitIndex + 7 - 64) := by
  have hp : b &&& payloadMask < 128 := by
    rw [and_payloadMask]
    exact Nat.mod_lt _ (by norm_num)
  have hmask : (bitIndex + 7) &&& wordMask = bitIndex + 7 - 64 := by
    rw [and_wordMask]
    omega
  have hword1 : word ||| (b &&& payloadMask) <<< bitIndex % 2 ^ 64 =
      word + (b &&& payloadMask) % 2 ^ (64 - bitIndex) * 2 ^ bitIndex := by
    rw [shiftLeft_mod _ _ _ (by omega), ← Nat.shiftLeft_eq,
      lor_shiftLeft_eq_add _ hword, Nat.shiftLeft_eq]
    ring
  have hmodlt : (b &&& payloadMask) % 2 ^ (64 - bitIndex) < 2 ^ (64 - bitIndex) :=
    Nat.mod_lt _ (by positivity)
  refine ⟨hmask, hword1, ?_, ?_, ?_⟩
  · rw [hword1]
    calc word + (b &&& payloadMask) % 2 ^ (64 - bitIndex) * 2 ^ bitIndex
        < 2 ^ bitIndex + (b &&& payloadMask) % 2 ^ (64 - bitIndex) * 2 ^ bitIndex := by
          omega
      _ = ((b &&& payloadMask) % 2 ^ (64 - bitIndex) + 1) * 2 ^ bitIndex := by ring
      _ ≤ 2 ^ (64 - bitIndex) * 2 ^ bitIndex := Nat.mul_le_mul_right _ (by omega)
      _ = 2 ^ 64 := by
          rw [← pow_add]
          congr 1
          omega
  · rw [hmask, Nat.shiftRight_eq_div_pow]
    congr 2
    omega
  · rw [Nat.div_lt_iff_lt_mul (by positivity), ← pow_add]
    calc b &&& payloadMask < 128 := hp
      _ = 2 ^ 7 := by norm_num
      _ ≤ 2 ^ (bitIndex + 7 - 64 + (64 - bitIndex)) :=
          Nat.pow_le_pow_right (by norm_num) (by omega)

/-- Helper: state facts for one decode step that stays inside the current
machine word. -/
lemma decode_plain_facts (b word bitIndex : Nat) (hword : word < 2 ^ bitIndex)
    (hplain : bitIndex + 7 < 64) :
    word ||| (b &&& payloadMask) <<< bitIndex % 2 ^ 64 =
      word + (b &&& payloadMask) * 2 ^ bitIndex ∧
    word ||| (b &&& payloadMask) <<< bitIndex % 2 ^ 64 < 2 ^ (bitIndex + 7) := by
  have hp : b &&& payloadMask < 128 := by
    rw [and_payloadMask]
    exact Nat.mod_lt _ (by norm_num)
  have hshlt : (b &&& payloadMask) <<< bitIndex < 2 ^ 64 := by
    rw [Nat.shiftLeft_eq]
    exact mul_pow_lt
      (by rw [show (2:Nat) ^ 7 = 128 from by norm_num]; exact hp) (by omega)
  have hword1 : word ||| (b &&& payloadMask) <<< bitIndex % 2 ^ 64 =
      word + (b &&& payloadMask) * 2 ^ bitIndex := by
    rw [Nat.mod_eq_of_lt hshlt, lor_shiftLeft_eq_add _ hword]
    ring
  refine ⟨hword1, ?_⟩
  rw [hword1]
  calc word + (b &&& payloadMask) * 2 ^ bitIndex
      < 2 ^ bitIndex + (b &&& payloadMask) * 2 ^ bitIndex := by omega
    _ = ((b &&& payloadMask) + 1) * 2 ^ bitIndex := by ring
    _ ≤ 2 ^ 7 * 2 ^ bitIndex := Nat.mul_le_mul_right _ (by omega)
    _ = 2 ^ (bitIndex + 7) := by
        rw [← pow_add]
        congr 1
        omega

/-- Helper: full correctness of the Decode loop on a buffer whose first
terminator byte is t, preceded by continuation bytes c.  The decoded value
extends the accumulated state by the payload bits of the consumed bytes. -/
lemma decodeLoop_spec : ∀ (c : List Nat) (t : Nat) (rest : List Nat)
    (index : Nat) (words : List Nat) (word bitIndex : Nat),
    (∀ b ∈ c, b &&& continuationMask = continuationMask) →
    t &&& continuationMask ≠ continuationMask →
    (∀ w ∈ words, w < 2 ^ 64) → word < 2 ^ bitIndex → bitIndex < 64 →
    (decodeLoop (c ++ t :: rest) index words word bitIndex).ok = true ∧
    (decodeLoop (c ++ t :: rest) index words word bitIndex).byteCount =
      index + c.length + 1 ∧
    resultValue (decodeLoop (c ++ t :: rest) index words word bitIndex) =
      fromWords words +
        (word + payloadSum (c ++ [t]) * 2 ^ bitIndex) * 2 ^ (64 * words.length) ∧
    ((decodeLoop (c ++ t :: rest) index words word bitIndex).asBigInt = none →
      (decodeLoop (c ++ t :: rest) index words word bitIndex).asUint < 2 ^ 64) := by
  intro c
  induction c with
  | nil =>
    intro t rest index words word bitIndex _ ht hws hword hbi
    simp only [List.nil_append, List.length_nil]
    have hpS : payloadSum [t] = t &&& payloadMask := by
      simp [payloadSum]
    rw [decodeLoop]
    by_cases hover : wordSize ≤ bitIndex + 7
    · have hover' : 64 ≤ bitIndex + 7 := hover
      obtain ⟨hmask, hword1, hword1lt, hword2, hword2lt⟩ :=
        decode_overflow_facts t word bitIndex hword hbi hover'
      rw [if_pos hover, if_neg ht]
      obtain ⟨hok, hbc, hval, huint⟩ := decodeFinish_spec index
        (words ++ [word ||| (t &&& payloadMask) <<< bitIndex % 2 ^ 64])
        ((t &&& payloadMask) >>> (7 - ((bitIndex + 7) &&& wordMask)))
        (by
          intro w hw
          rcases List.mem_append.mp hw with h | h
          · exact hws w h
          · rw [List.mem_singleton] at h
            subst h
            exact hword1lt)
        (by
          rw [hword2]
          calc (t &&& payloadMask) / 2 ^ (64 - bitIndex) <
              2 ^ (bitIndex + 7 - 64) := hword2lt
            _ ≤ 2 ^ 64 := Nat.pow_le_pow_right (by norm_num) (by omega))
      refine ⟨hok, by rw [hbc], ?_, huint⟩
      rw [hval, hword1, hword2, fromWords_append, List.length_append,
        List.length_singleton, hpS]
      have hstep := decode_step_overflow word (t &&& payloadMask) 0 words.length
        (fromWords words) (64 - bitIndex) (bitIndex + 7 - 64) bitIndex
        (by omega) (by omega)
      simp only [Nat.zero_mul, Nat.add_zero, Nat.mul_zero] at hstep
      exact hstep
    · have hover' : ¬ 64 ≤ bitIndex + 7 := hover
      obtain ⟨hword1, hword1lt⟩ := decode_plain_facts t word bitIndex hword
        (by omega)
      rw [if_neg hover, if_neg ht]
      obtain ⟨hok, hbc, hval, huint⟩ := decodeFinish_spec index words
        (word ||| (t &&& payloadMask) <<< bitIndex % 2 ^ 64) hws
        (by
          calc word ||| (t &&& payloadMask) <<< bitIndex % 2 ^ 64 <
              2 ^ (bitIndex + 7) := hword1lt
            _ ≤ 2 ^ 64 := Nat.pow_le_pow_right (by norm_num) (by omega))
      refine ⟨hok, by rw [hbc], ?_, huint⟩
      rw [hval, hword1, hpS]
  | cons b c' ih =>
    intro t rest index words word bitIndex hc ht hws hword hbi
    have hb : b &&& continuationMask = continuationMask := hc b (by simp)
    have hc' : ∀ x ∈ c', x &&& continuationMask = continuationMask :=
      fun x hx => hc x (by simp [hx])
    simp only [List.cons_append, List.length_cons]
    have hpS : payloadSum (b :: (c' ++ [t])) =
        (b &&& payloadMask) + 128 * payloadSum (c' ++ [t]) := rfl
    rw [decodeLoop]
    by_cases hover : wordSize ≤ bitIndex + 7
    · have hover' : 64 ≤ bitIndex + 7 := hover
      obtain ⟨hmask, hword1, hword1lt, hword2, hword2lt⟩ :=
        decode_overflow_facts b word bitIndex hword hbi hover'
      rw [if_pos hover, if_pos hb]
      obtain ⟨hok, hbc, hval, huint⟩ := ih t rest (index + 1)
        (words ++ [word ||| (b &&& payloadMask) <<< bitIndex % 2 ^ 64])
        ((b &&& payloadMask) >>> (7 - ((bitIndex + 7) &&& wordMask)))
        ((bitIndex + 7) &&& wordMask) hc' ht
        (by
          intro w hw
          rcases List.mem_append.mp hw with h | h
          · exact hws w h
          · rw [List.mem_singleton] at h
            subst h
            exact hword1lt)
        (by rw [hword2, hmask]; exact hword2lt)
        (by rw [hmask]; omega)
      refine ⟨hok, by rw [hbc]; omega, ?_, huint⟩
      rw [hval, hword1, hword2, hmask, fromWords_append, List.length_append,
        List.length_singleton, hpS]
      exact decode_step_overflow word (b &&& payloadMask)
        (payloadSum (c' ++ [t])) words.length (fromWords words)
        (64 - bitIndex) (bitIndex + 7 - 64) bitIndex (by omega) (by omega)
    · have hover' : ¬ 64 ≤ bitIndex + 7 := hover
      obtain ⟨hword1, hword1lt⟩ := decode_plain_facts b word bitIndex hword
        (by omega)
      rw [if_neg hover, if_pos hb]
      obtain ⟨hok, hbc, hval, huint⟩ := ih t rest (index + 1) words
        (word ||| (b &&& payloadMask) <<< bitIndex % 2 ^ 64) (bitIndex + 7)
        hc' ht hws hword1lt (by omega)
      refine ⟨hok, by rw [hbc]; omega, ?_, huint⟩
      rw [hval, hword1, hpS]
      exact decode_step_plain word (b &&& payloadMask) (payloadSum (c' ++ [t]))
        bitIndex words.length (fromWords words)

/-- Helper: a byte with its continuation flag set is at least 128. -/
lemma cont_ge {b : Nat} (h : b &&& continuationMask = continuationMask) :
    128 ≤ b := by
  by_contra hcon
  push_neg at hcon
  have h7 : b.testBit 7 = false := Nat.testBit_lt_two_pow (by norm_num; omega)
  have : b &&& continuationMask = 0 := by
    rw [continuationMask, show (0x80 : Nat) = 2 ^ 7 from by norm_num,
      Nat.and_two_pow, h7]
    simp
  rw [this] at h
  exact absurd h.symm (by norm_num [continuationMask])

/-- Helper: full behaviour of Decode on a terminated buffer with a valid
pre-seed: ok, byte count up to the first terminator, the decoded value is
the payload bits shifted above the masked seed, and a uint64 result is in
range. -/
lemma Decode_spec (pre pbc : Nat) (c : List Nat) (t : Nat) (rest : List Nat)
    (hpre : pre < 2 ^ 64) (hpbc : pbc ≤ 64)
    (hc : ∀ b ∈ c, b &&& continuationMask = continuationMask)
    (ht : t &&& continuationMask ≠ continuationMask) :
    (Decode pre pbc (c ++ t :: rest)).ok = true ∧
    (Decode pre pbc (c ++ t :: rest)).byteCount = c.length + 1 ∧
    resultValue (Decode pre pbc (c ++ t :: rest)) =
      pre % 2 ^ pbc + payloadSum (c ++ [t]) * 2 ^ pbc ∧
    ((Decode pre pbc (c ++ t :: rest)).asBigInt = none →
      (Decode pre pbc (c ++ t :: rest)).asUint < 2 ^ 64) := by
  have hclamp : (if 64 < pbc then 64 else pbc) = pbc := if_neg (by omega)
  have hmaskv : pre &&& maskForBitCount pbc = pre % 2 ^ pbc :=
    and_maskForBitCount hpbc pre
  have hpvlt : pre % 2 ^ pbc < 2 ^ pbc := Nat.mod_lt _ (by positivity)
  have hpv64 : pre % 2 ^ pbc < 2 ^ 64 :=
    lt_of_lt_of_le hpvlt (Nat.pow_le_pow_right (by norm_num) hpbc)
  have hslow : ∀ pv : Nat, pv = pre % 2 ^ pbc →
      (decodeLoop (c ++ t :: rest) 0 (spillWords pv pbc []).1
        (spillWords pv pbc []).2.1 (spillWords pv pbc []).2.2).ok = true ∧
      (decodeLoop (c ++ t :: rest) 0 (spillWords pv pbc []).1
        (spillWords pv pbc []).2.1 (spillWords pv pbc []).2.2).byteCount =
        c.length + 1 ∧
      resultValue (decodeLoop (c ++ t :: rest) 0 (spillWords pv pbc []).1
        (spillWords pv pbc []).2.1 (spillWords pv pbc []).2.2) =
        pre % 2 ^ pbc + payloadSum (c ++ [t]) * 2 ^ pbc ∧
      ((decodeLoop (c ++ t :: rest) 0 (spillWords pv pbc []).1
        (spillWords pv pbc []).2.1 (spillWords pv pbc []).2.2).asBigInt = none →
        (decodeLoop (c ++ t :: rest) 0 (spillWords pv pbc []).1
          (spillWords pv pbc []).2.1
          (spillWords pv pbc []).2.2).asUint < 2 ^ 64) := by
    intro pv hpv
    subst hpv
    by_cases hpbc64 : pbc = 64
    · subst hpbc64
      simp only [spillWords_64, List.nil_append]
      have hsh : (pre % 2 ^ 64) >>> 64 = 0 := by
        rw [Nat.shiftRight_eq_div_pow]
        exact Nat.div_eq_of_lt hpv64
      obtain ⟨hok, hbc, hval, huint⟩ := decodeLoop_spec c t rest 0
        [pre % 2 ^ 64] ((pre % 2 ^ 64) >>> 64) 0 hc ht
        (by
          intro w hw
          rw [List.mem_singleton] at hw
          subst hw
          exact hpv64)
        (by rw [hsh]; norm_num)
        (by norm_num)
      refine ⟨hok, by rw [hbc]; omega, ?_, huint⟩
      rw [hval, hsh]
      simp [fromWords]
    · simp only [spillWords_lt ([] : List Nat) (show pbc < 64 from by omega)]
      obtain ⟨hok, hbc, hval, huint⟩ := decodeLoop_spec c t rest 0 []
        (pre % 2 ^ pbc) pbc hc ht (by simp) hpvlt (by omega)
      refine ⟨hok, by rw [hbc]; omega, ?_, huint⟩
      rw [hval]
      simp [fromWords]
  rw [Decode, hclamp, hmaskv, decodeClamped,
    if_neg (by simp : ¬ (c ++ t :: rest).length = 0)]
  cases c with
  | nil =>
    have hgetD : (([] : List Nat) ++ t :: rest).getD 0 0 = t := rfl
    rw [hgetD]
    by_cases ht0 : t = 0
    · rw [if_pos ht0]
      subst ht0
      refine ⟨rfl, rfl, ?_, fun _ => hpv64⟩
      simp [resultValue, payloadSum]
    · rw [if_neg ht0]
      by_cases hfast : t < 0x80 ∧ pbc ≤ 57
      · rw [if_pos hfast]
        obtain ⟨ht128, hpbc57⟩ := hfast
        have hval : t <<< pbc ||| pre % 2 ^ pbc =
            pre % 2 ^ pbc + t * 2 ^ pbc := by
          rw [Nat.lor_comm, lor_shiftLeft_eq_add _ hpvlt]
          ring
        have hps : payloadSum ([] ++ [t]) = t := by
          have : t &&& payloadMask = t := by
            rw [and_payloadMask]
            exact Nat.mod_eq_of_lt (by omega)
          simp [payloadSum, this]
        refine ⟨rfl, rfl, ?_, ?_⟩
        · simp only [resultValue]
          rw [hval, hps]
        · intro _
          show t <<< pbc ||| pre % 2 ^ pbc < 2 ^ 64
          rw [hval]
          calc pre % 2 ^ pbc + t * 2 ^ pbc
              < 2 ^ pbc + t * 2 ^ pbc := by omega
            _ = (t + 1) * 2 ^ pbc := by ring
            _ ≤ 2 ^ 7 * 2 ^ pbc := Nat.mul_le_mul_right _ (by omega)
            _ = 2 ^ (7 + pbc) := (pow_add 2 7 pbc).symm
            _ ≤ 2 ^ 64 := Nat.pow_le_pow_right (by norm_num) (by omega)
      · rw [if_neg hfast]
        exact hslow _ rfl
  | cons b c'' =>
    have hb : b &&& continuationMask = continuationMask := hc b (by simp)
    have hb128 : 128 ≤ b := cont_ge hb
    have hgetD : ((b :: c'') ++ t :: rest).getD 0 0 = b := rfl
    rw [hgetD, if_neg (by omega : ¬ b = 0),
      if_neg (by
        intro hcon
        have := hcon.1
        norm_num at this
        omega)]
    exact hslow _ rfl

/-- Helper: the Horner form of payloadSum equals the positional sum of the
payload groups weighted by 2 ^ (7 i). -/
lemma payloadSum_eq_sum : ∀ (l : List Nat),
    payloadSum l =
      ∑ i in Finset.range l.length, (l.getD i 0 &&& payloadMask) * 2 ^ (7 * i) := by
  intro l
  induction l with
  | nil => simp [payloadSum]
  | cons b bs ih =>
    rw [show payloadSum (b :: bs) = (b &&& payloadMask) + 128 * payloadSum bs
        from rfl,
      List.length_cons, Finset.sum_range_succ']
    simp only [List.getD_cons_succ, List.getD_cons_zero]
    rw [ih, Finset.mul_sum,
      show (7 : Nat) * 0 = 0 from rfl, pow_zero, Nat.mul_one, Nat.add_comm]
    congr 1
    apply Finset.sum_congr rfl
    intro i _
    rw [show 7 * (i + 1) = 7 * i + 7 from by ring, pow_add,
      show (2:Nat) ^ 7 = 128 from by norm_num]
    ring

/-- Helper: size of a quotient by a power of two. -/
lemma size_div_two_pow (k v : Nat) (h : 2 ^ k ≤ v) :
    Nat.size (v / 2 ^ k) = Nat.size v - k := by
  have hv0 : 0 < v := lt_of_lt_of_le (by positivity) h
  have hks : k < Nat.size v := Nat.lt_size.mpr h
  apply Nat.le_antisymm
  · rw [Nat.size_le, Nat.div_lt_iff_lt_mul (by positivity), ← pow_add]
    exact lt_of_lt_of_le (Nat.lt_size_self v)
      (Nat.pow_le_pow_right (by norm_num) (by omega))
  · have h2 : 2 ^ (Nat.size v - 1) ≤ v :=
      Nat.lt_size.mp (by omega : Nat.size v - 1 < Nat.size v)
    have h3 : Nat.size v - k - 1 < Nat.size (v / 2 ^ k) := by
      rw [Nat.lt_size, Nat.le_div_iff_mul_le (by positivity), ← pow_add]
      calc (2:Nat) ^ (Nat.size v - k - 1 + k) ≤ 2 ^ (Nat.size v - 1) :=
          Nat.pow_le_pow_right (by norm_num) (by omega)
        _ ≤ v := h2
    omega

/-- Helper: the counting loop computes the ceiling of the bit length over
seven. -/
lemma shift7Count_size : ∀ v, shift7Count v = (Nat.size v + 6) / 7 := by
  intro v
  induction v using Nat.strong_induction_on with
  | _ v ih =>
    by_cases hv : v = 0
    · subst hv
      rw [shift7Count_zero, Nat.size_zero]
    · by_cases hsmall : v < 128
      · rw [shift7Count_pos hv, Nat.div_eq_of_lt hsmall, shift7Count_zero]
        have h1 : 1 ≤ Nat.size v := Nat.size_pos.mpr (by omega)
        have h7 : Nat.size v ≤ 7 := by
          rw [Nat.size_le]
          norm_num
          omega
        omega
      · push_neg at hsmall
        have h8 : 7 < Nat.size v := Nat.lt_size.mpr (by norm_num; omega)
        rw [shift7Count_pos hv,
          ih (v / 128) (Nat.div_lt_self (by omega) (by norm_num)),
          show (128:Nat) = 2 ^ 7 from by norm_num,
          size_div_two_pow 7 v (by norm_num; omega)]
        omega

/-- Helper: EncodedSize is the ceiling of the bit length over seven, with a
floor of one. -/
lemma EncodedSize_size (v : Nat) :
    EncodedSize v = max 1 ((Nat.size v + 6) / 7) := by
  by_cases hv : v = 0
  · subst hv
    rw [EncodedSize, if_pos rfl, Nat.size_zero]
    omega
  · obtain ⟨hne, hlast, hlast0⟩ := toWords_last v hv
    have hlt := toWords_lt v
    have hn1 : 1 ≤ (toWords v).length := by
      cases hh : toWords v with
      | nil => exact absurd hh hne
      | cons x xs => simp
    have hBle : 2 ^ (64 * ((toWords v).length - 1)) ≤ v := by
      by_contra hcon
      push_neg at hcon
      rw [Nat.div_eq_of_lt hcon] at hlast0
      exact hlast0 rfl
    have hsizeL : Nat.size (v / 2 ^ (64 * ((toWords v).length - 1))) =
        Nat.size v - 64 * ((toWords v).length - 1) :=
      size_div_two_pow _ v hBle
    have hlastlt : v / 2 ^ (64 * ((toWords v).length - 1)) < 2 ^ 64 := by
      rw [Nat.div_lt_iff_lt_mul (by positivity), ← pow_add]
      calc v < 2 ^ (64 * (toWords v).length) := hlt
        _ ≤ 2 ^ (64 + 64 * ((toWords v).length - 1)) :=
          Nat.pow_le_pow_right (by norm_num) (by omega)
    have hL1 : 1 ≤ Nat.size (v / 2 ^ (64 * ((toWords v).length - 1))) :=
      Nat.size_pos.mpr (Nat.pos_of_ne_zero hlast0)
    have hBsize : 64 * ((toWords v).length - 1) < Nat.size v :=
      Nat.lt_size.mpr hBle
    rw [EncodedSize, if_neg hv, show wordSize = 64 from rfl,
      Nat.mul_comm ((toWords v).length - 1) 64, hlast,
      Nat.shiftRight_eq_div_pow, shift7Count_size]
    by_cases ho : 7 - 64 * ((toWords v).length - 1) % 7 <
        Nat.size (v / 2 ^ (64 * ((toWords v).length - 1)))
    · rw [size_div_two_pow _ _ (Nat.lt_size.mp ho), hsizeL]
      omega
    · push_neg at ho
      rw [Nat.div_eq_of_lt (Nat.size_le.mp ho), Nat.size_zero]
      rw [hsizeL] at ho
      omega

section PanicEvaluation

set_option exponentiation.threshold 600
set_option maxRecDepth 8000

/-- Helper: word representation of the smallest 8-word value. -/
lemma toWords_two_pow_448 : toWords (2 ^ 448) = [0, 0, 0, 0, 0, 0, 0, 1] := by
  simp [toWords]

/-- Helper: the encoded size of the smallest 8-word value is 65 bytes. -/
lemma EncodedSize_two_pow_448 : EncodedSize (2 ^ 448) = 65 := by
  rw [EncodedSize_size, Nat.size_pow]
  omega

/-- Helper: encoding the smallest 8-word value into 65 bytes reads table
index 14 and panics (the model returns none). -/
lemma encode64_two_pow_448_panics :
    encode64 (2 ^ 448) (List.replicate 65 0) = none := by
  rw [encode64, if_neg (by positivity), toWords_two_pow_448]
  decide

/-- Helper: same panic with a 64-byte buffer, reached after the bounds
checks all pass. -/
lemma encode64_two_pow_448_panics_64 :
    encode64 (2 ^ 448) (List.replicate 64 0) = none := by
  rw [encode64, if_neg (by positivity), toWords_two_pow_448]
  decide

end PanicEvaluation

/-! Claim theorems. -/

/-- Claim C1: the claimed universal round-trip fails on the code.  For
V = 2 ^ 448, the smallest value with eight 64-bit words, with a buffer of
exactly EncodedSize V = 65 bytes, Encode does not return a byte count at
all: after seven words the shift index, advanced modulo 15 over the
14-entry tables, reaches 14 and encode64 reads groupCounts64[14] out of
range, a Go runtime panic (modelled as none), so the encoded bytes never
exist and no decode can return V. -/
theorem encode_roundtrip_panic :
    EncodedSize (2 ^ 448) = 65 ∧
    Encode (2 ^ 448) (List.replicate 65 0) = none :=
  ⟨EncodedSize_two_pow_448, encode64_two_pow_448_panics⟩

/-- Claim C2: decoder value semantics.  For every byte sequence whose
first byte with a clear continuation flag is t, preceded by the
continuation bytes c, Decode with a zero seed returns ok, consumes
exactly the bytes up to and including that terminator, and the decoded
value is the sum of the payload groups (low 7 bits of each consumed byte)
weighted by 2 ^ (7 i); non-minimal encodings with trailing zero payload
groups are accepted like any other terminated input. -/
theorem decode_value_semantics (c : List Nat) (t : Nat) (rest : List Nat)
    (hbytes : ∀ b ∈ c ++ t :: rest, b < 256)
    (hc : ∀ b ∈ c, b &&& continuationMask = continuationMask)
    (ht : t &&& continuationMask ≠ continuationMask) :
    (Decode 0 0 (c ++ t :: rest)).ok = true ∧
    (Decode 0 0 (c ++ t :: rest)).byteCount = c.length + 1 ∧
    resultValue (Decode 0 0 (c ++ t :: rest)) =
      ∑ i in Finset.range (c.length + 1),
        ((c ++ [t]).getD i 0 &&& payloadMask) * 2 ^ (7 * i) := by
  obtain ⟨hok, hbc, hval, _⟩ :=
    Decode_spec 0 0 c t rest (by norm_num) (by norm_num) hc ht
  refine ⟨hok, hbc, ?_⟩
  rw [hval, payloadSum_eq_sum]
  simp

/-- Witness for C2 at the concrete input 0x80 0x01, which decodes to 128
in two bytes. -/
theorem decode_value_semantics_witness :
    (Decode 0 0 ([0x80] ++ 1 :: [])).ok = true ∧
    (Decode 0 0 ([0x80] ++ 1 :: [])).byteCount = [0x80].length + 1 ∧
    resultValue (Decode 0 0 ([0x80] ++ 1 :: [])) =
      ∑ i in Finset.range ([0x80].length + 1),
        (([0x80] ++ [1]).getD i 0 &&& payloadMask) * 2 ^ (7 * i) :=
  decode_value_semantics [0x80] 1 [] (by decide) (by decide) (by decide)

/-- Claim C3: fixed-width and arbitrary-precision encoder equivalence.
For every value below 2 ^ 64 and every buffer with room for its encoding,
Encode (encode64 on this platform) returns exactly the buffer contents
and byte count of EncodeUint64, with the same ok result. -/
theorem encode_equiv_encodeUint64 (v : Nat) (buffer : List Nat)
    (hv : v < 2 ^ 64) (hlen : EncodedSizeUint64 v ≤ buffer.length) :
    Encode v buffer = some (EncodeUint64 v buffer) := by
  by_cases h0 : v = 0
  · subst h0
    have h1 : EncodedSizeUint64 0 = 1 := by
      rw [EncodedSizeUint64]
      simp
    rw [h1] at hlen
    rw [Encode, encode64, EncodeUint64, if_pos rfl, if_pos rfl,
      if_neg (by omega : ¬ buffer.length = 0), if_neg (by omega : ¬ buffer.length = 0)]
  · rw [Encode, encode64_single v buffer h0 hv hlen,
      EncodeUint64_spec v buffer hlen]

/-- Witness for C3 at value 300 and a two-byte buffer. -/
theorem encode_equiv_encodeUint64_witness :
    Encode 300 [0, 0] = some (EncodeUint64 300 [0, 0]) :=
  encode_equiv_encodeUint64 300 [0, 0] (by norm_num)
    (by simp [EncodedSizeUint64, shift7Count])

/-- Claim C4: size estimator exactness.  EncodedSize of any value, and
EncodedSizeUint64 of any value below 2 ^ 64, equal the ceiling of the bit
length divided by 7, with value 0 giving 1; in particular the sizes of 0,
127 and 128 are 1, 1 and 2. -/
theorem encoded_size_exact :
    (∀ v : Nat, EncodedSize v = max 1 ((Nat.size v + 6) / 7)) ∧
    (∀ v : Nat, v < 2 ^ 64 → EncodedSizeUint64 v = max 1 ((Nat.size v + 6) / 7)) ∧
    EncodedSize 0 = 1 ∧ EncodedSize 127 = 1 ∧ EncodedSize 128 = 2 ∧
    EncodedSizeUint64 0 = 1 ∧ EncodedSizeUint64 127 = 1 ∧
    EncodedSizeUint64 128 = 2 := by
  have h127 : Nat.size 127 = 7 :=
    le_antisymm (Nat.size_le.mpr (by norm_num)) (Nat.lt_size.mpr (by norm_num))
  have h128 : Nat.size 128 = 8 :=
    le_antisymm (Nat.size_le.mpr (by norm_num)) (Nat.lt_size.mpr (by norm_num))
  have h2 : ∀ v : Nat, EncodedSizeUint64 v = max 1 ((Nat.size v + 6) / 7) := by
    intro v
    by_cases hv : v = 0
    · subst hv
      rw [EncodedSizeUint64, if_pos rfl, Nat.size_zero]
      omega
    · rw [EncodedSizeUint64_of_ne hv, shift7Count_size]
      have h1 : 1 ≤ Nat.size v := Nat.size_pos.mpr (by omega)
      omega
  refine ⟨EncodedSize_size, fun v _ => h2 v, ?_, ?_, ?_, ?_, ?_, ?_⟩
  · rw [EncodedSize_size, Nat.size_zero]
    omega
  · rw [EncodedSize_size, h127]
    omega
  · rw [EncodedSize_size, h128]
    omega
  · rw [h2 0, Nat.size_zero]
    omega
  · rw [h2 127, h127]
    omega
  · rw [h2 128, h128]
    omega

/-- Witness for C4 at value 128, which needs two bytes. -/
theorem encoded_size_exact_witness :
    EncodedSizeUint64 128 = max 1 ((Nat.size 128 + 6) / 7) :=
  encoded_size_exact.2.1 128 (by norm_num)

/-- Claim C5: the claimed insufficient-capacity behaviour (ok = false, no
crash) fails on the code.  For V = 2 ^ 448 and a 64-byte buffer, one byte
short of EncodedSize V = 65, the bounds checks pass for all 64 written
bytes and then encode64 reads groupCounts64[14] out of range, a Go
runtime panic (modelled as none) instead of the specified not-ok
result. -/
theorem encode_insufficient_capacity_panic :
    EncodedSize (2 ^ 448) = 65 ∧
    Encode (2 ^ 448) (List.replicate 64 0) = none :=
  ⟨EncodedSize_two_pow_448, encode64_two_pow_448_panics_64⟩

/-- Claim C6: unterminated input.  For every byte sequence in which every
byte has the continuation flag set, including the empty sequence, Decode
with a zero seed returns ok = false with zero bytes consumed (and zero
results). -/
theorem decode_unterminated_fails (buffer : List Nat)
    (hbytes : ∀ b ∈ buffer, b < 256)
    (hall : ∀ b ∈ buffer, b &&& continuationMask = continuationMask) :
    Decode 0 0 buffer = ⟨0, none, 0, false⟩ := by
  cases buffer with
  | nil => decide
  | cons b rest =>
    have hb : b &&& continuationMask = continuationMask := hall b (by simp)
    have hb128 : 128 ≤ b := cont_ge hb
    rw [Decode, decodeClamped]
    simp only [show (if (64:Nat) < 0 then 64 else 0) = 0 from rfl, Nat.zero_and,
      List.getD_cons_zero]
    rw [if_neg (by simp), if_neg (by omega : ¬ b = 0),
      if_neg (by
        intro hcon
        have h1 := hcon.1
        norm_num at h1
        omega)]
    simp only [show spillWords 0 0 ([] : List Nat) = (([] : List Nat), 0, 0)
      from rfl]
    exact decodeLoop_unterminated (b :: rest) hall 0 [] 0 0

/-- Witness for C6 at the concrete input 0x80 0x80. -/
theorem decode_unterminated_fails_witness :
    Decode 0 0 [0x80, 0x80] = ⟨0, none, 0, false⟩ :=
  decode_unterminated_fails [0x80, 0x80] (by decide) (by decide)

/-- Claim C7: continuation seeding.  For every pre-seed value below
2 ^ 64, every bit count up to 64 and every terminated byte sequence,
the seeded decode returns the same ok flag and byte count as the unseeded
decode of the same bytes, and its value is the unseeded value shifted up
by the bit count plus the seed masked to its low bits. -/
theorem decode_continuation_seeding (pre pbc : Nat) (c : List Nat) (t : Nat)
    (rest : List Nat) (hpre : pre < 2 ^ 64) (hpbc : pbc ≤ 64)
    (hbytes : ∀ b ∈ c ++ t :: rest, b < 256)
    (hc : ∀ b ∈ c, b &&& continuationMask = continuationMask)
    (ht : t &&& continuationMask ≠ continuationMask) :
    (Decode pre pbc (c ++ t :: rest)).ok = (Decode 0 0 (c ++ t :: rest)).ok ∧
    (Decode pre pbc (c ++ t :: rest)).byteCount =
      (Decode 0 0 (c ++ t :: rest)).byteCount ∧
    resultValue (Decode pre pbc (c ++ t :: rest)) =
      resultValue (Decode 0 0 (c ++ t :: rest)) * 2 ^ pbc + pre % 2 ^ pbc := by
  obtain ⟨hok, hbc, hval, _⟩ := Decode_spec pre pbc c t rest hpre hpbc hc ht
  obtain ⟨hok0, hbc0, hval0, _⟩ :=
    Decode_spec 0 0 c t rest (by norm_num) (by norm_num) hc ht
  refine ⟨by rw [hok, hok0], by rw [hbc, hbc0], ?_⟩
  rw [hval, hval0]
  simp
  ring

/-- Witness for C7: decoding 0x01 with pre-value 5 and pre-bit-count 4
yields 21. -/
theorem decode_continuation_seeding_witness :
    resultValue (Decode 5 4 ([] ++ 1 :: [])) = 21 ∧
    (Decode 5 4 ([] ++ 1 :: [])).ok = (Decode 0 0 ([] ++ 1 :: [])).ok := by
  obtain ⟨h1, _, h3⟩ := decode_continuation_seeding 5 4 [] 1 []
    (by norm_num) (by norm_num) (by decide) (by decide) (by decide)
  refine ⟨?_, h1⟩
  rw [h3]
  decide

/-- Claim C8, counterexample: the original claim is false.  The
non-minimal terminated input 0x81 0x80*18 0x00 decodes to the value 1,
which fits in a uint64, yet Decode returns it in a non-nil big.Int result
(with asUint 0), because the padding spans two complete 64-bit words. -/
theorem decode_bigint_repr_counterexample :
    Decode 0 0 (0x81 :: (List.replicate 18 0x80 ++ [0])) =
      ⟨0, some 1, 20, true⟩ ∧
    (1 : Nat) ≤ 2 ^ 64 - 1 :=
  ⟨by decide, by norm_num⟩

/-- Claim C8, amended: whenever Decode returns with a nil big.Int result
the decoded value is the uint64 result and fits in 64 bits, and whenever
the decoded value exceeds 2 ^ 64 - 1 the big.Int result is non-nil and
carries it; however, a non-minimal encoding whose bit groups span two or
more machine words may return a value that fits in a uint64 in the
big.Int result instead (asUint then being 0), as the counterexample
shows. -/
theorem decode_bigint_repr_amended (pre pbc : Nat) (c : List Nat) (t : Nat)
    (rest : List Nat) (hpre : pre < 2 ^ 64) (hpbc : pbc ≤ 64)
    (hbytes : ∀ b ∈ c ++ t :: rest, b < 256)
    (hc : ∀ b ∈ c, b &&& continuationMask = continuationMask)
    (ht : t &&& continuationMask ≠ continuationMask) :
    ((Decode pre pbc (c ++ t :: rest)).asBigInt = none →
      (Decode pre pbc (c ++ t :: rest)).asUint =
        resultValue (Decode pre pbc (c ++ t :: rest)) ∧
      resultValue (Decode pre pbc (c ++ t :: rest)) < 2 ^ 64) ∧
    (2 ^ 64 ≤ resultValue (Decode pre pbc (c ++ t :: rest)) →
      (Decode pre pbc (c ++ t :: rest)).asBigInt =
        some (resultValue (Decode pre pbc (c ++ t :: rest)))) := by
  obtain ⟨hok, hbc, hval, huint⟩ := Decode_spec pre pbc c t rest hpre hpbc hc ht
  constructor
  · intro hnone
    refine ⟨by simp [resultValue, hnone], ?_⟩
    have := huint hnone
    simp only [resultValue, hnone]
    exact this
  · intro hge
    cases hbig : (Decode pre pbc (c ++ t :: rest)).asBigInt with
    | none =>
      exfalso
      have h1 := huint hbig
      have h2 : resultValue (Decode pre pbc (c ++ t :: rest)) =
          (Decode pre pbc (c ++ t :: rest)).asUint := by
        simp [resultValue, hbig]
      omega
    | some x =>
      have h2 : resultValue (Decode pre pbc (c ++ t :: rest)) = x := by
        simp [resultValue, hbig]
      rw [h2]

/-- Witness for the amended C8 at nine 0xFF continuation bytes followed by
0x03, whose value 2 ^ 64 + 2 ^ 63 - 1 exceeds 2 ^ 64 - 1. -/
theorem decode_bigint_repr_amended_witness :
    ((Decode 0 0 (List.replicate 9 0xFF ++ 3 :: [])).asBigInt = none →
      (Decode 0 0 (List.replicate 9 0xFF ++ 3 :: [])).asUint =
        resultValue (Decode 0 0 (List.replicate 9 0xFF ++ 3 :: [])) ∧
      resultValue (Decode 0 0 (List.replicate 9 0xFF ++ 3 :: [])) < 2 ^ 64) ∧
    (2 ^ 64 ≤ resultValue (Decode 0 0 (List.replicate 9 0xFF ++ 3 :: [])) →
      (Decode 0 0 (List.replicate 9 0xFF ++ 3 :: [])).asBigInt =
        some (resultValue (Decode 0 0 (List.replicate 9 0xFF ++ 3 :: [])))) :=
  decode_bigint_repr_amended 0 0 (List.replicate 9 0xFF) 3 []
    (by norm_num) (by norm_num) (by decide) (by decide) (by decide)

/-- Claim C9: for every pre-bit count above 64 Decode behaves exactly as
with a pre-bit count of 64: the count is clamped before the seed is
masked or used. -/
theorem decode_prebitcount_clamped (pre pbc : Nat) (buffer : List Nat)
    (h : 64 < pbc) :
    Decode pre pbc buffer = Decode pre 64 buffer := by
  rw [Decode, Decode, if_pos h, if_neg (by omega : ¬ (64:Nat) < 64)]

/-- Witness for C9 at pre-bit count 100. -/
theorem decode_prebitcount_clamped_witness :
    Decode 5 100 [1] = Decode 5 64 [1] :=
  decode_prebitcount_clamped 5 100 [1] (by norm_num)

/-- Claim C10: decoding an empty buffer returns ok = false with zero bytes
consumed, a nil big.Int result, and the uint64 result holding the pre-seed
masked to its low pre-bit-count bits. -/
theorem decode_empty_buffer (pre pbc : Nat) (hpre : pre < 2 ^ 64) :
    Decode pre pbc [] = ⟨pre % 2 ^ pbc, none, 0, false⟩ := by
  by_cases h : 64 < pbc
  · rw [Decode, if_pos h, decodeClamped]
    simp only [List.length_nil, if_true]
    rw [and_maskForBitCount (le_refl 64),
      Nat.mod_eq_of_lt hpre,
      Nat.mod_eq_of_lt
        (lt_of_lt_of_le hpre (Nat.pow_le_pow_right (by norm_num) (by omega)))]
  · rw [Decode, if_neg h, decodeClamped]
    simp only [List.length_nil, if_true]
    rw [and_maskForBitCount (by omega)]

/-- Witness for C10 at pre-value 5 and pre-bit count 4. -/
theorem decode_empty_buffer_witness :
    Decode 5 4 [] = ⟨5 % 2 ^ 4, none, 0, false⟩ :=
  decode_empty_buffer 5 4 (by norm_num)
